import Mathlib

set_option maxRecDepth 20000

/-!
Verification of the diff-extraction and rule-evaluation core of the
review-ready pre-PR checker.  The JavaScript/TypeScript source is shallowly
embedded: JS strings become Lean `String` (operated on through their
`List Char` data), the handful of regular expressions in the source are
compiled by hand into decidable scanning functions with the exact
backtracking semantics of the original patterns, and the stateful scanning
loops become folds or structural recursions over the list of lines.
-/

/-! ## JS string primitives -/

/-- Word character in the sense of the regex class used by the source
(letters, digits, underscore). -/
def isWordChar (c : Char) : Bool :=
  ('a' ≤ c && c ≤ 'z') || ('A' ≤ c && c ≤ 'Z') || ('0' ≤ c && c ≤ '9') || c == '_'

/-- The whitespace class of JS regexes (spaces, tabs, line separators and
the Unicode space separators). -/
def isJsWhitespace (c : Char) : Bool :=
  c == ' ' || c == '\t' || c == '\n' || c.val == 0x0B || c.val == 0x0C || c == '\r' ||
  c.val == 0xA0 || c.val == 0x1680 || (0x2000 ≤ c.val && c.val ≤ 0x200A) ||
  c.val == 0x2028 || c.val == 0x2029 || c.val == 0x202F || c.val == 0x205F ||
  c.val == 0x3000 || c.val == 0xFEFF

/-- ASCII lower-casing, modelling String.toLowerCase on the ASCII range. -/
def asciiLower (c : Char) : Char :=
  if 'A' ≤ c && c ≤ 'Z' then Char.ofNat (c.toNat + 32) else c

/-- Does the second list start with the first (pattern, then subject)? -/
def startsWithL : List Char → List Char → Bool
  | [], _ => true
  | _ :: _, [] => false
  | p :: ps, c :: cs => p == c && startsWithL ps cs

/-- Case-insensitive version: the pattern is given in lower case. -/
def startsWithCI : List Char → List Char → Bool
  | [], _ => true
  | _ :: _, [] => false
  | p :: ps, c :: cs => asciiLower c == p && startsWithCI ps cs

/-- JS String.includes: does `s` contain `pat` as a contiguous substring? -/
def containsL (pat : List Char) : List Char → Bool
  | [] => pat.isEmpty
  | c :: cs => startsWithL pat (c :: cs) || containsL pat cs

/-- JS String.endsWith. -/
def endsWithL (s suf : List Char) : Bool := startsWithL suf.reverse s.reverse

/-- JS String.split with a one-character separator; always returns at least
one (possibly empty) piece, like the JS original. -/
def splitOnCharL (sep : Char) : List Char → List (List Char)
  | [] => [[]]
  | c :: cs =>
    let r := splitOnCharL sep cs
    if c == sep then [] :: r
    else
      match r with
      | [] => [[c]]
      | h :: t => (c :: h) :: t

/-- JS String.trim (both ends, JS whitespace class). -/
def jsTrim (s : List Char) : List Char :=
  ((s.dropWhile isJsWhitespace).reverse.dropWhile isJsWhitespace).reverse

/-- Replace the first occurrence of `pat` (a plain string, not a regex) by
`rep`, as JS String.replace with a string pattern; an empty pattern matches
at the start of the subject. -/
def jsReplaceFirstStr (pat rep : List Char) : List Char → List Char
  | [] => if pat.isEmpty then rep else []
  | c :: cs =>
    if startsWithL pat (c :: cs) then rep ++ (c :: cs).drop pat.length
    else c :: jsReplaceFirstStr pat rep cs

/-- Maximal run of decimal digits at the front, with the rest. -/
def takeDigits : List Char → List Char × List Char
  | [] => ([], [])
  | c :: cs =>
    if c.isDigit then
      let (d, r) := takeDigits cs
      (c :: d, r)
    else ([], c :: cs)

/-- Value of a digit string, as parseInt(·, 10) computes it. -/
def digitsToNat (ds : List Char) : Nat :=
  ds.foldl (fun n c => n * 10 + (c.toNat - '0'.toNat)) 0

/-- Strip an exact literal from the front, returning the rest. -/
def stripStart : List Char → List Char → Option (List Char)
  | [], s => some s
  | _ :: _, [] => none
  | p :: ps, c :: cs => if p == c then stripStart ps cs else none

/-- String-level wrappers. -/
def startsWithS (s pat : String) : Bool := startsWithL pat.data s.data

def containsS (s pat : String) : Bool := containsL pat.data s.data

def endsWithS (s suf : String) : Bool := endsWithL s.data suf.data

def jsTrimS (s : String) : String := String.mk (jsTrim s.data)

def jsToLowerS (s : String) : String := String.mk (s.data.map asciiLower)

/-! ## Data model (checks.ts) -/

inductive Severity where
  | error
  | warning
  | info
deriving DecidableEq, Repr

structure CheckResult where
  rule : String
  severity : Severity
  message : String
  line : Option Nat
  file : Option String
deriving DecidableEq, Repr

structure FileChanges where
  filename : String
  addedLines : List String
  addedLineNumbers : List Nat
  isNewFile : Bool
  sizeBytes : Nat
deriving DecidableEq, Repr

/-! ## Diff extraction (gitDiff.ts parseDiffOutput, cli.ts parseDiff) -/

structure ParsedDiff where
  addedLines : List String
  addedLineNumbers : List Nat
  isNewFile : Bool
deriving DecidableEq, Repr

/-- State of the line scan: the two accumulated sequences, the new-file
flag and the running new-file line counter. -/
structure DiffState where
  addedLines : List String
  addedLineNumbers : List Nat
  isNewFile : Bool
  currentNewLine : Nat
deriving DecidableEq, Repr

/-- The hunk-header pattern of both parsers, anchored at the start of a
line: two @ signs, a space, minus, digits, an optional comma-digits old
count, space, plus, digits (captured), an optional comma-digits new count,
space and two @ signs.  Returns the captured new-range start. -/
def parseHunkHeader (l : List Char) : Option Nat :=
  match stripStart "@@ -".data l with
  | none => none
  | some r1 =>
    let (d1, r2) := takeDigits r1
    if d1.isEmpty then none
    else
      let r3 := match r2 with
        | ',' :: rest =>
          let (d, r') := takeDigits rest
          if d.isEmpty then r2 else r'
        | _ => r2
      match stripStart " +".data r3 with
      | none => none
      | some r4 =>
        let (d2, r5) := takeDigits r4
        if d2.isEmpty then none
        else
          let r6 := match r5 with
            | ',' :: rest =>
              let (d, r') := takeDigits rest
              if d.isEmpty then r5 else r'
            | _ => r5
          match stripStart " @@".data r6 with
          | none => none
          | some _ => some (digitsToNat d2)

/-- One line of the scan in gitDiff.ts parseDiffOutput: the new-file-mode
test does not skip the rest of the line handling (no continue in the
source), the hunk header resets the counter, a plus line that is not the
+++ file header records content and number, a space line advances the
counter, everything else is ignored. -/
def diffStep (st : DiffState) (l : List Char) : DiffState :=
  let st := if startsWithL "new file mode".data l then { st with isNewFile := true } else st
  match parseHunkHeader l with
  | some n => { st with currentNewLine := n }
  | none =>
    if startsWithL "+".data l && !startsWithL "+++".data l then
      { st with addedLines := st.addedLines ++ [String.mk (l.drop 1)],
                addedLineNumbers := st.addedLineNumbers ++ [st.currentNewLine],
                currentNewLine := st.currentNewLine + 1 }
    else if startsWithL " ".data l then
      { st with currentNewLine := st.currentNewLine + 1 }
    else st

/-- parseDiffOutput of gitDiff.ts. -/
def parseDiffOutput (diff : String) : ParsedDiff :=
  let st := (splitOnCharL '\n' diff.data).foldl diffStep
    { addedLines := [], addedLineNumbers := [], isNewFile := false, currentNewLine := 0 }
  { addedLines := st.addedLines, addedLineNumbers := st.addedLineNumbers, isNewFile := st.isNewFile }

/-- One line of the scan in cli.ts parseDiff: identical to diffStep except
that a new-file-mode line ends the handling of that line (continue in the
source). -/
def diffStepCli (st : DiffState) (l : List Char) : DiffState :=
  if startsWithL "new file mode".data l then { st with isNewFile := true }
  else
    match parseHunkHeader l with
    | some n => { st with currentNewLine := n }
    | none =>
      if startsWithL "+".data l && !startsWithL "+++".data l then
        { st with addedLines := st.addedLines ++ [String.mk (l.drop 1)],
                  addedLineNumbers := st.addedLineNumbers ++ [st.currentNewLine],
                  currentNewLine := st.currentNewLine + 1 }
      else if startsWithL " ".data l then
        { st with currentNewLine := st.currentNewLine + 1 }
      else st

/-- parseDiff of cli.ts. -/
def parseDiff (diff : String) : ParsedDiff :=
  let st := (splitOnCharL '\n' diff.data).foldl diffStepCli
    { addedLines := [], addedLineNumbers := [], isNewFile := false, currentNewLine := 0 }
  { addedLines := st.addedLines, addedLineNumbers := st.addedLineNumbers, isNewFile := st.isNewFile }

/-- The extraction algorithm exactly as the specification words it
(section 4.1): a new-file-marker line sets the flag and scanning
continues; a hunk header resets the counter and produces no record; a
plus line that is not the +++ file header appends content and the current
counter and increments it; a space line only increments the counter; a
minus line changes nothing; every other line is ignored. -/
def extractSpecLines : List (List Char) → Nat → ParsedDiff
  | [], _ => { addedLines := [], addedLineNumbers := [], isNewFile := false }
  | l :: ls, cur =>
    if startsWithL "new file mode".data l then
      let r := extractSpecLines ls cur
      { r with isNewFile := true }
    else
      match parseHunkHeader l with
      | some n => extractSpecLines ls n
      | none =>
        if startsWithL "+".data l && !startsWithL "+++".data l then
          let r := extractSpecLines ls (cur + 1)
          { addedLines := String.mk (l.drop 1) :: r.addedLines,
            addedLineNumbers := cur :: r.addedLineNumbers,
            isNewFile := r.isNewFile }
        else if startsWithL " ".data l then extractSpecLines ls (cur + 1)
        else extractSpecLines ls cur

/-- The specification algorithm on a whole diff text. -/
def extractSpec (diff : String) : ParsedDiff :=
  extractSpecLines (splitOnCharL '\n' diff.data) 0

/-- Do the hunk headers of the diff appear in order, that is, does every
hunk header declare a new-range start at least as large as the scan
counter reached just before it?  The counter is advanced exactly as the
parsers advance it. -/
def hunksOrderedAux : List (List Char) → Nat → Bool
  | [], _ => true
  | l :: ls, cur =>
    match parseHunkHeader l with
    | some n => decide (cur ≤ n) && hunksOrderedAux ls n
    | none =>
      if startsWithL "+".data l && !startsWithL "+++".data l then hunksOrderedAux ls (cur + 1)
      else if startsWithL " ".data l then hunksOrderedAux ls (cur + 1)
      else hunksOrderedAux ls cur

def hunksOrdered (diff : String) : Bool :=
  hunksOrderedAux (splitOnCharL '\n' diff.data) 0

/-! ## Regex scanning helpers

A call of RegExp.test is an existential over start positions; the helpers
below scan every suffix.  Patterns that open with a word boundary and a
word character can only match where the preceding character is not a word
character, which the word-start scanner tracks. -/

/-- Try the pattern at every position (plain RegExp.test semantics). -/
def scanAny (p : List Char → Bool) : List Char → Bool
  | [] => false
  | c :: cs => p (c :: cs) || scanAny p cs

/-- Try the pattern at every position whose preceding character is not a
word character (a word boundary before a pattern starting with a word
character); the Bool argument carries the word-ness of the previous
character, initially false. -/
def scanWordStart (p : List Char → Bool) : Bool → List Char → Bool
  | _, [] => false
  | prevW, c :: cs => (!prevW && p (c :: cs)) || scanWordStart p (isWordChar c) cs

/-- Do the next `n` characters exist and satisfy the class? -/
def nPred : Nat → (Char → Bool) → List Char → Bool
  | 0, _, _ => true
  | _ + 1, _, [] => false
  | n + 1, p, c :: cs => p c && nPred n p cs

/-- Zero or more JS whitespace characters followed by an opening
parenthesis. -/
def wsThenParen (s : List Char) : Bool :=
  match s.dropWhile isJsWhitespace with
  | '(' :: _ => true
  | _ => false

/-- Word boundary after a match ending in a word character: end of string
or a non-word character next. -/
def wordTail (s : List Char) : Bool :=
  match s with
  | [] => true
  | c :: _ => !isWordChar c

/-! ## Debug-statement check (checks.ts DEBUG_PATTERNS and
checkDebugStatements) -/

/-- console logging call: word boundary, console, dot, one of the seven
method names, optional whitespace, opening parenthesis. -/
def debugConsole (line : String) : Bool :=
  scanWordStart (fun s =>
    startsWithL "console.".data s &&
      ["log", "debug", "warn", "error", "trace", "dir", "table"].any
        (fun m => startsWithL m.data (s.drop 8) && wsThenParen (s.drop (8 + m.length))))
    false line.data

/-- The breakpoint keyword with word boundaries on both sides. -/
def debugDebugger (line : String) : Bool :=
  scanWordStart (fun s => startsWithL "debugger".data s && wordTail (s.drop 8)) false line.data

/-- Bare print call (Python). -/
def debugPrint (line : String) : Bool :=
  scanWordStart (fun s => startsWithL "print".data s && wsThenParen (s.drop 5)) false line.data

/-- Ruby puts followed by one whitespace character. -/
def debugPuts (line : String) : Bool :=
  scanWordStart (fun s => startsWithL "puts".data s &&
    (match s.drop 4 with
     | c :: _ => isJsWhitespace c
     | [] => false)) false line.data

/-- Go formatted-print call. -/
def debugFmtPrint (line : String) : Bool :=
  scanWordStart (fun s => startsWithL "fmt.Print".data s) false line.data

/-- Rust println-style macro call. -/
def debugPrintln (line : String) : Bool :=
  scanWordStart (fun s => startsWithL "println!".data s && wsThenParen (s.drop 8)) false line.data

/-- PHP var_dump call. -/
def debugVarDump (line : String) : Bool :=
  scanWordStart (fun s => startsWithL "var_dump".data s && wsThenParen (s.drop 8)) false line.data

/-- PHP and Laravel dd call. -/
def debugDd (line : String) : Bool :=
  scanWordStart (fun s => startsWithL "dd".data s && wsThenParen (s.drop 2)) false line.data

def DEBUG_PATTERNS : List (String → Bool) :=
  [debugConsole, debugDebugger, debugPrint, debugPuts, debugFmtPrint,
   debugPrintln, debugVarDump, debugDd]

/-- Does the trimmed line start with one of the three comment markers
excluded by checkDebugStatements? -/
def debugCommentStart (line : String) : Bool :=
  startsWithS (jsTrimS line) "//" || startsWithS (jsTrimS line) "#" ||
    startsWithS (jsTrimS line) "*"

/-- The forEach body of checkDebugStatements: index-carrying scan that
pushes at most one error per added line (the source breaks after the
first matching pattern, and the finding does not depend on which pattern
matched). -/
def debugScan (c : FileChanges) : Nat → List String → List CheckResult
  | _, [] => []
  | idx, line :: rest =>
    (if debugCommentStart line then []
     else if DEBUG_PATTERNS.any (fun p => p line) then
       [{ rule := "no-debug-statements", severity := Severity.error,
          message := "Debug statement found: " ++ jsTrimS line,
          line := c.addedLineNumbers.get? idx, file := some c.filename }]
     else []) ++ debugScan c (idx + 1) rest

def checkDebugStatements (c : FileChanges) : List CheckResult :=
  debugScan c 0 c.addedLines

/-! ## TODO check (checks.ts TODO_PATTERN and checkTodos) -/

def TODO_WORDS : List (List Char) :=
  ["todo".data, "fixme".data, "hack".data, "xxx".data, "temp".data, "wtf".data, "bug".data]

/-- One marker word at a word boundary, case-insensitively, immediately
followed by a whitespace character or a colon. -/
def todoLineHit (line : String) : Bool :=
  scanWordStart (fun s => TODO_WORDS.any (fun w =>
    startsWithCI w s &&
      (match s.drop w.length with
       | c :: _ => isJsWhitespace c || c == ':'
       | [] => false))) false line.data

/-- The forEach body of checkTodos: one warning per matching added line,
no comment exclusion. -/
def todoScan (c : FileChanges) : Nat → List String → List CheckResult
  | _, [] => []
  | idx, line :: rest =>
    (if todoLineHit line then
       [{ rule := "no-todo-in-changes", severity := Severity.warning,
          message := "Unresolved marker in new code: " ++ jsTrimS line,
          line := c.addedLineNumbers.get? idx, file := some c.filename }]
     else []) ++ todoScan c (idx + 1) rest

def checkTodos (c : FileChanges) : List CheckResult :=
  todoScan c 0 c.addedLines

/-! ## Secret check (checks.ts SECRET_PATTERNS and checkSecrets) -/

def isAsciiLetter (c : Char) : Bool := ('a' ≤ c && c ≤ 'z') || ('A' ≤ c && c ≤ 'Z')

def isAsciiAlnum (c : Char) : Bool := isAsciiLetter c || ('0' ≤ c && c ≤ '9')

def isBase64Char (c : Char) : Bool := isAsciiAlnum c || c == '+' || c == '/'

def isQuote (c : Char) : Bool := c == '\'' || c == '"'

/-- Quote, forty or more base64 characters, quote.  The greedy repetition
can only hand back characters of its own class, which excludes both
quotes, so the closing quote must sit right after the maximal run. -/
def secretLongBase64 (line : String) : Bool :=
  scanAny (fun s =>
    match s with
    | c :: cs =>
      isQuote c &&
        (let run := cs.takeWhile isBase64Char
         40 ≤ run.length &&
           (match cs.drop run.length with
            | d :: _ => isQuote d
            | [] => false))
    | [] => false) line.data

/-- Quoted run of at least `minLen` non-quote characters: the class
excludes both quotes, so the maximal run must be long enough and be
terminated by a quote. -/
def quotedRun (minLen : Nat) (s : List Char) : Bool :=
  match s with
  | c :: cs =>
    isQuote c &&
      (let run := cs.takeWhile (fun d => !isQuote d)
       minLen ≤ run.length &&
         (match cs.drop run.length with
          | d :: _ => isQuote d
          | [] => false))
  | [] => false

/-- Optional whitespace, a colon or equals sign, optional whitespace, then
a quoted run of at least `minLen` characters. -/
def sepQuoted (minLen : Nat) (s : List Char) : Bool :=
  match s.dropWhile isJsWhitespace with
  | c :: cs => (c == ':' || c == '=') && quotedRun minLen (cs.dropWhile isJsWhitespace)
  | [] => false

/-- api, an optional underscore or hyphen, key (case-insensitive), then an
assignment of a quoted value of at least eight characters; the second
alternative of the source pattern, apikey without separator, is the
optional-absent case of the first. -/
def secretApiKey (line : String) : Bool :=
  scanAny (fun s =>
    if startsWithCI "api".data s then
      let r := s.drop 3
      match r with
      | c :: cs =>
        if c == '_' || c == '-' then startsWithCI "key".data cs && sepQuoted 8 (cs.drop 3)
        else startsWithCI "key".data r && sepQuoted 8 (r.drop 3)
      | [] => false
    else false) line.data

/-- secret, password, passwd or pwd (case-insensitive) followed by an
assignment of a quoted value of at least four characters. -/
def secretCredential (line : String) : Bool :=
  scanAny (fun s => ["secret", "password", "passwd", "pwd"].any
    (fun w => startsWithCI w.data s && sepQuoted 4 (s.drop w.length))) line.data

/-- AWS access-key-id shape: AKIA or ASIA then sixteen upper-case letters
or digits. -/
def secretAws (line : String) : Bool :=
  scanAny (fun s => (startsWithL "AKIA".data s || startsWithL "ASIA".data s) &&
    nPred 16 (fun c => ('A' ≤ c && c ≤ 'Z') || ('0' ≤ c && c ≤ '9')) (s.drop 4)) line.data

/-- GitHub personal access token shape. -/
def secretGithub (line : String) : Bool :=
  scanAny (fun s => startsWithL "ghp_".data s && nPred 36 isAsciiAlnum (s.drop 4)) line.data

/-- OpenAI key shape. -/
def secretOpenAI (line : String) : Bool :=
  scanAny (fun s => startsWithL "sk-".data s && nPred 48 isAsciiAlnum (s.drop 3)) line.data

/-- Slack token shape: xox, one of b a p r s, a hyphen, then at least ten
characters of letters, digits or hyphens. -/
def secretSlack (line : String) : Bool :=
  scanAny (fun s => startsWithL "xox".data s &&
    (match s.drop 3 with
     | b :: '-' :: rest =>
       (b == 'b' || b == 'a' || b == 'p' || b == 'r' || b == 's') &&
         nPred 10 (fun c => isAsciiAlnum c || c == '-') rest
     | _ => false)) line.data

def SECRET_PATTERNS : List ((String → Bool) × String) :=
  [(secretLongBase64, "long base64-like string"),
   (secretApiKey, "API key"),
   (secretCredential, "credential"),
   (secretAws, "AWS access key"),
   (secretGithub, "GitHub personal access token"),
   (secretOpenAI, "OpenAI API key"),
   (secretSlack, "Slack token")]

/-- The forEach body of checkSecrets: comment lines are skipped, the first
matching pattern supplies the label. -/
def secretScan (c : FileChanges) : Nat → List String → List CheckResult
  | _, [] => []
  | idx, line :: rest =>
    (if startsWithS (jsTrimS line) "//" || startsWithS (jsTrimS line) "#" then []
     else
       match SECRET_PATTERNS.find? (fun q => q.1 line) with
       | some q =>
         [{ rule := "no-secrets", severity := Severity.error,
            message := "Possible " ++ q.2 ++ " detected",
            line := c.addedLineNumbers.get? idx, file := some c.filename }]
       | none => []) ++ secretScan c (idx + 1) rest

/-- checkSecrets of checks.ts: paths that look like test, spec, mock,
fixture, example or sample-environment files, and markdown files, are
skipped wholesale before any line is scanned. -/
def checkSecrets (c : FileChanges) : List CheckResult :=
  let lowerName := jsToLowerS c.filename
  if containsS lowerName "test" || containsS lowerName "spec" ||
     containsS lowerName "mock" || containsS lowerName "fixture" ||
     containsS lowerName "example" || containsS lowerName ".env.sample" ||
     endsWithS lowerName ".md" then []
  else secretScan c 0 c.addedLines

/-! ## Test-coverage check (checks.ts TEST_NAMING_CONVENTIONS and
checkTestExists) -/

/-- The dot plus the last dot-separated piece of the path, as the source
computes the extension. -/
def extOf (f : String) : String :=
  String.mk ('.' :: ((splitOnCharL '.' f.data).getLastD []))

/-- The last slash-separated piece of the path. -/
def lastSegment (f : String) : String :=
  String.mk ((splitOnCharL '/' f.data).getLastD [])

def SOURCE_EXTENSIONS : List String :=
  [".ts", ".tsx", ".js", ".jsx", ".py", ".rb", ".go", ".java"]

/-- End-anchored rename of a ts, tsx, js or jsx extension inserting the
given word, the dollar-anchored replace of the source conventions; a path
with none of the four endings is returned unchanged.  At most one of the
four endings can match the fixed end of the string. -/
def jsExtRename (word : List Char) (f : List Char) : List Char :=
  match ["ts".data, "tsx".data, "js".data, "jsx".data].find?
      (fun e => endsWithL f ('.' :: e)) with
  | some e => f.take (f.length - (e.length + 1)) ++ ('.' :: word) ++ ('.' :: e)
  | none => f

def conv1 (f : String) : String := String.mk (jsExtRename "test".data f.data)

def conv2 (f : String) : String := String.mk (jsExtRename "spec".data f.data)

def conv3 (f : String) : String :=
  String.mk (jsExtRename "test".data (jsReplaceFirstStr "/src/".data "/tests/".data f.data))

def conv4 (f : String) : String :=
  String.mk (jsExtRename "test".data (jsReplaceFirstStr "/src/".data "/test/".data f.data))

/-- Python convention, guarded in the source: the rename counts only when
it changes the name, otherwise the empty string is returned. -/
def conv5 (f : String) : String :=
  if endsWithL f.data ".py".data then
    String.mk (f.data.take (f.data.length - 3) ++ "_test.py".data)
  else ""

/-- The basename the source computes with a greedy dot-star-slash regex
replace: within the first newline-free segment containing a slash,
everything up to the last slash of that segment is removed. -/
def regexBaseAux : List (List Char) → List (List Char)
  | [] => []
  | seg :: rest =>
    if seg.contains '/' then ((seg.reverse.takeWhile (fun c => c != '/')).reverse) :: rest
    else seg :: regexBaseAux rest

def regexBase (f : List Char) : List Char :=
  List.intercalate ['\n'] (regexBaseAux (splitOnCharL '\n' f))

/-- Prefix the basename with test_, implemented in the source as a plain
string replace of the first occurrence of the computed basename. -/
def conv6 (f : String) : String :=
  let base := regexBase f.data
  String.mk (jsReplaceFirstStr base ("test_".data ++ base) f.data)

def TEST_NAMING_CONVENTIONS : List (String → String) :=
  [conv1, conv2, conv3, conv4, conv5, conv6]

/-- End-anchored test or spec infix with a ts, tsx, js or jsx extension. -/
def isTestSpecFile (f : String) : Bool :=
  ["test", "spec"].any (fun w => ["ts", "tsx", "js", "jsx"].any
    (fun e => endsWithS f ("." ++ w ++ "." ++ e)))

/-- test underscore, at least one word character, then a dot-py ending the
string; the word class cannot cross the dot, so the run must reach it. -/
def isPyTestFile (f : String) : Bool :=
  scanAny (fun s =>
    startsWithL "test_".data s &&
      (let r := s.drop 5
       let run := r.takeWhile isWordChar
       !run.isEmpty && r.drop run.length = ".py".data)) f.data

/-- Fully anchored infrastructural basenames with a JS or TS extension. -/
def isInfraBase (b : String) : Bool :=
  ["index", "types", "constants", "config", "main", "app"].any
    (fun n => ["ts", "tsx", "js", "jsx"].any (fun e => b == n ++ "." ++ e))

/-- checkTestExists of checks.ts; the project file set is modelled as a
list with membership, matching the string set of the source. -/
def checkTestExists (c : FileChanges) (allProjectFiles : List String) : List CheckResult :=
  let ext := extOf c.filename
  if !(SOURCE_EXTENSIONS.contains ext) then []
  else if isTestSpecFile c.filename then []
  else if isPyTestFile c.filename then []
  else if containsS c.filename "__tests__" then []
  else
    let base := lastSegment c.filename
    if isInfraBase base then []
    else if TEST_NAMING_CONVENTIONS.any (fun fn => allProjectFiles.contains (fn c.filename)) then []
    else
      [{ rule := "test-file-exists", severity := Severity.info,
         message := "No test file found for " ++ base,
         line := none, file := some c.filename }]

/-! ## Complexity check (checks.ts BRANCH_KEYWORDS and checkComplexity)

The branch regex wraps all its alternatives in word boundaries and is
applied globally; the scan below walks the text once, at each position
with a word boundary before it tries the alternatives in the order of the
pattern, counts the first full match and resumes after it. -/

/-- A word-literal alternative: the literal, which ends in a word
character, followed by a word boundary.  Yields the last character of the
match and its length. -/
def litBranch (lit : List Char) (s : List Char) : Option (Char × Nat) :=
  if startsWithL lit s && wordTail (s.drop lit.length) then
    some (lit.getLastD ' ', lit.length)
  else none

/-- Word boundary after a match ending in a non-word character: the next
character must exist and be a word character. -/
def symTail (s : List Char) : Bool :=
  match s with
  | [] => false
  | c :: _ => isWordChar c

/-- A symbol alternative (the doubled ampersands or bars): the literal
followed by a word boundary, which after a non-word character demands a
word character next. -/
def symBranch (lit : List Char) (last : Char) (s : List Char) : Option (Char × Nat) :=
  if startsWithL lit s && symTail (s.drop lit.length) then some (last, lit.length) else none

/-- Index of the first colon. -/
def colonIdx : List Char → Option Nat
  | [] => none
  | c :: cs => if c == ':' then some 0 else (colonIdx cs).map (· + 1)

/-- The ternary alternative: a question mark, optional whitespace, at
least one non-colon character, then a colon.  Neither repetition can
consume a colon, so the match must end at the first colon, which needs at
least one character before it; the trailing word boundary after the colon
demands a word character next. -/
def ternaryBranch (s : List Char) : Option (Char × Nat) :=
  match s with
  | '?' :: rest =>
    match colonIdx rest with
    | some n => if 1 ≤ n && symTail (rest.drop (n + 1)) then some (':', n + 2) else none
    | none => none
  | _ => none

/-- The alternatives of the branch pattern in source order. -/
def tryBranchAt (s : List Char) : Option (Char × Nat) :=
  litBranch "if".data s <|> litBranch "else if".data s <|> litBranch "while".data s <|>
  litBranch "for".data s <|> litBranch "case".data s <|> litBranch "catch".data s <|>
  ternaryBranch s <|> symBranch "&&".data '&' s <|> symBranch "||".data '|' s

/-- Global scan counting matches; the Bool argument is the word-ness of
the previous character.  Every alternative consumes at least one
character, so the structural fuel of one unit per character never runs
out when started with the length of the text. -/
def countBranchesAux : Nat → Bool → List Char → Nat
  | 0, _, _ => 0
  | _ + 1, _, [] => 0
  | fuel + 1, prevW, c :: cs =>
    if prevW != isWordChar c then
      match tryBranchAt (c :: cs) with
      | some (last, len) => 1 + countBranchesAux fuel (isWordChar last) (cs.drop (len - 1))
      | none => countBranchesAux fuel (isWordChar c) cs
    else countBranchesAux fuel (isWordChar c) cs

/-- Number of global matches of the branch pattern in the text. -/
def countBranches (s : List Char) : Nat := countBranchesAux s.length false s

/-- checkComplexity of checks.ts: JS and TS extensions only, at least
twenty added lines, and the match count plus one against the
caller-supplied threshold; the threshold is an arbitrary integer as in
the source configuration. -/
def checkComplexity (c : FileChanges) (threshold : Int) : List CheckResult :=
  let ext := extOf c.filename
  if !([".ts", ".tsx", ".js", ".jsx"].contains ext) then []
  else if c.addedLines.length < 20 then []
  else
    let fullText := List.intercalate '\n'.toString.data (c.addedLines.map String.data)
    let approxCC := countBranches fullText + 1
    if (approxCC : Int) > threshold then
      [{ rule := "complexity-threshold", severity := Severity.warning,
         message := "New code has high apparent complexity (~" ++ toString approxCC ++
           " branches) — consider breaking it up",
         line := none, file := some c.filename }]
    else []

/-! ## Severity sort (cli.ts runChecksAndReport)

The source sorts the merged findings with Array.prototype.sort and the
comparator order a minus order b; the ECMAScript sort is required to be
stable, and a stable sort by a total preorder is extensionally unique, so
it is modelled by a stable insertion sort keyed on the same rank. -/

/-- The severity rank object of the comparator. -/
def order (s : Severity) : Nat :=
  match s with
  | Severity.error => 0
  | Severity.warning => 1
  | Severity.info => 2

/-- Stable insertion: the new element goes after every element of equal or
smaller rank. -/
def insertFinding (x : CheckResult) : List CheckResult → List CheckResult
  | [] => [x]
  | y :: ys =>
    if order y.severity ≤ order x.severity then y :: insertFinding x ys
    else x :: y :: ys

/-- The stable severity-major sort of the merged findings list. -/
def sortFindings (l : List CheckResult) : List CheckResult :=
  l.foldl (fun acc x => insertFinding x acc) []

/-- A line produces a debug finding exactly when it is not
comment-started and some debug pattern matches. -/
def debugLineHit (line : String) : Bool :=
  !debugCommentStart line && DEBUG_PATTERNS.any (fun p => p line)

/-- The finding a matching line at a given index produces. -/
def debugLineFinding (c : FileChanges) (idx : Nat) (line : String) : CheckResult :=
  { rule := "no-debug-statements", severity := Severity.error,
    message := "Debug statement found: " ++ jsTrimS line,
    line := c.addedLineNumbers.get? idx, file := some c.filename }

/-- The finding a marker line at a given index produces. -/
def todoLineFinding (c : FileChanges) (idx : Nat) (line : String) : CheckResult :=
  { rule := "no-todo-in-changes", severity := Severity.warning,
    message := "Unresolved marker in new code: " ++ jsTrimS line,
    line := c.addedLineNumbers.get? idx, file := some c.filename }

/-- The single warning finding of the complexity check, with the
approximate branch count embedded in its message. -/
def complexityFinding (c : FileChanges) : CheckResult :=
  { rule := "complexity-threshold", severity := Severity.warning,
    message := "New code has high apparent complexity (~" ++
      toString (countBranches
        (List.intercalate '\n'.toString.data (c.addedLines.map String.data)) + 1) ++
      " branches) — consider breaking it up",
    line := none, file := some c.filename }

/-- Ordering of findings by severity rank. -/
def leFinding (a b : CheckResult) : Prop := order a.severity ≤ order b.severity

/-! ## Theorems about the rule evaluator -/

/-- A line that carries the new-file marker starts with the letter n, so
it can be neither a hunk header nor a plus or space line. -/
theorem newFileMode_line_shape {l : List Char}
    (h : startsWithL "new file mode".data l = true) :
    parseHunkHeader l = none ∧ startsWithL "+".data l = false ∧
      startsWithL " ".data l = false := by
  match l with
  | [] => simp [startsWithL] at h
  | c :: cs =>
    have hc : c = 'n' := by
      simp only [startsWithL, Bool.and_eq_true, beq_iff_eq] at h
      exact h.1.symm
    subst hc
    refine ⟨?_, ?_, ?_⟩
    · simp [parseHunkHeader, stripStart]
    · simp [startsWithL]
    · simp [startsWithL]

/-- The two scan steps agree on every state and line: the only textual
difference between them is that gitDiff.ts keeps processing a
new-file-mode line, but such a line can match none of the later tests. -/
theorem diffStep_eq_diffStepCli (st : DiffState) (l : List Char) :
    diffStep st l = diffStepCli st l := by
  by_cases hn : startsWithL "new file mode".data l = true
  · obtain ⟨h1, h2, h3⟩ := newFileMode_line_shape hn
    have hplus : (startsWithL "+".data l && !startsWithL "+++".data l) = false := by
      simp [h2]
    simp [diffStep, diffStepCli, hn, h1, hplus, h3]
  · simp [diffStep, diffStepCli, hn]

theorem foldl_diffStep_eq_cli : ∀ (lines : List (List Char)) (st : DiffState),
    lines.foldl diffStep st = lines.foldl diffStepCli st := by
  intro lines
  induction lines with
  | nil => intro st; rfl
  | cons l ls ih =>
    intro st
    rw [List.foldl_cons, List.foldl_cons, diffStep_eq_diffStepCli, ih]

/-- Lengths of the two accumulated sequences move in lock step. -/
theorem diffStep_len (st : DiffState) (l : List Char)
    (h : st.addedLines.length = st.addedLineNumbers.length) :
    (diffStep st l).addedLines.length = (diffStep st l).addedLineNumbers.length := by
  by_cases hn : startsWithL "new file mode".data l = true <;>
  · cases hph : parseHunkHeader l <;>
    by_cases hp : (startsWithL "+".data l && !startsWithL "+++".data l) = true <;>
    by_cases hs : startsWithL " ".data l = true <;>
    simp [diffStep, hn, hph, hp, hs, h]

theorem foldl_diffStep_len : ∀ (lines : List (List Char)) (st : DiffState),
    st.addedLines.length = st.addedLineNumbers.length →
    ((lines.foldl diffStep st).addedLines).length =
      ((lines.foldl diffStep st).addedLineNumbers).length := by
  intro lines
  induction lines with
  | nil => intro st h; exact h
  | cons l ls ih =>
    intro st h
    rw [List.foldl_cons]
    exact ih _ (diffStep_len st l h)

/-- Relation between the imperative accumulating scan of the source and
the recursive algorithm of the specification. -/
theorem foldl_diffStep_spec : ∀ (lines : List (List Char)) (st : DiffState),
    (lines.foldl diffStep st).addedLines =
      st.addedLines ++ (extractSpecLines lines st.currentNewLine).addedLines ∧
    (lines.foldl diffStep st).addedLineNumbers =
      st.addedLineNumbers ++ (extractSpecLines lines st.currentNewLine).addedLineNumbers ∧
    (lines.foldl diffStep st).isNewFile =
      (st.isNewFile || (extractSpecLines lines st.currentNewLine).isNewFile) := by
  intro lines
  induction lines with
  | nil => intro st; simp [extractSpecLines]
  | cons l ls ih =>
    intro st
    rw [List.foldl_cons]
    by_cases hn : startsWithL "new file mode".data l = true
    · obtain ⟨h1, h2, h3⟩ := newFileMode_line_shape hn
      have hplus : (startsWithL "+".data l && !startsWithL "+++".data l) = false := by
        simp [h2]
      have hstep : diffStep st l = { st with isNewFile := true } := by
        simp [diffStep, hn, h1, hplus, h3]
      rw [hstep]
      obtain ⟨e1, e2, e3⟩ := ih { st with isNewFile := true }
      refine ⟨?_, ?_, ?_⟩ <;> simp [extractSpecLines, hn, e1, e2, e3]
    · cases hph : parseHunkHeader l with
      | some n =>
        have hstep : diffStep st l = { st with currentNewLine := n } := by
          simp [diffStep, hn, hph]
        rw [hstep]
        obtain ⟨e1, e2, e3⟩ := ih { st with currentNewLine := n }
        refine ⟨?_, ?_, ?_⟩ <;> simp [extractSpecLines, hn, hph, e1, e2, e3]
      | none =>
        by_cases hp : (startsWithL "+".data l && !startsWithL "+++".data l) = true
        · have hstep : diffStep st l =
              { st with addedLines := st.addedLines ++ [String.mk (l.drop 1)],
                        addedLineNumbers := st.addedLineNumbers ++ [st.currentNewLine],
                        currentNewLine := st.currentNewLine + 1 } := by
            simp [diffStep, hn, hph, hp]
          rw [hstep]
          obtain ⟨e1, e2, e3⟩ := ih { st with
            addedLines := st.addedLines ++ [String.mk (l.drop 1)],
            addedLineNumbers := st.addedLineNumbers ++ [st.currentNewLine],
            currentNewLine := st.currentNewLine + 1 }
          simp only [List.drop_one] at e1 e2 e3
          refine ⟨?_, ?_, ?_⟩ <;> simp [extractSpecLines, hn, hph, hp, e1, e2, e3]
        · by_cases hs : startsWithL " ".data l = true
          · have hstep : diffStep st l = { st with currentNewLine := st.currentNewLine + 1 } := by
              simp [diffStep, hn, hph, hp, hs]
            rw [hstep]
            obtain ⟨e1, e2, e3⟩ := ih { st with currentNewLine := st.currentNewLine + 1 }
            refine ⟨?_, ?_, ?_⟩ <;> simp [extractSpecLines, hn, hph, hp, hs, e1, e2, e3]
          · have hstep : diffStep st l = st := by
              simp [diffStep, hn, hph, hp, hs]
            rw [hstep]
            obtain ⟨e1, e2, e3⟩ := ih st
            refine ⟨?_, ?_, ?_⟩ <;> simp [extractSpecLines, hn, hph, hp, hs, e1, e2, e3]

/-- C2 The extraction of gitDiff.ts computes exactly the single-scan
algorithm described by the specification: on every input text (so in
particular on every zero-context single-file diff) the hunk headers reset
the counter and produce no record, plus lines other than the +++ header
record their stripped content and the counter and increment it, space
lines only increment it, minus lines change nothing, new-file-mode lines
set the flag, and all other lines are ignored. -/
theorem parseDiffOutput_eq_extractSpec : ∀ d : String, parseDiffOutput d = extractSpec d := by
  intro d
  obtain ⟨e1, e2, e3⟩ := foldl_diffStep_spec (splitOnCharL '\n' d.data)
    { addedLines := [], addedLineNumbers := [], isNewFile := false, currentNewLine := 0 }
  simp only [parseDiffOutput, extractSpec]
  rw [e1, e2, e3]
  simp

/-- C9 For every input text, including empty or malformed text, the two
sequences of the extraction result have equal length (and the extraction
is a total function, so it returns normally on every input). -/
theorem parseDiffOutput_length_invariant :
    ∀ d : String, (parseDiffOutput d).addedLines.length =
      (parseDiffOutput d).addedLineNumbers.length := by
  intro d
  exact foldl_diffStep_len (splitOnCharL '\n' d.data) _ rfl

/-- C10 The duplicated parsers of gitDiff.ts and cli.ts agree on every
input string: same added lines, same line numbers, same new-file flag. -/
theorem parseDiffOutput_eq_parseDiff : ∀ d : String, parseDiffOutput d = parseDiff d := by
  intro d
  simp only [parseDiffOutput, parseDiff]
  rw [foldl_diffStep_eq_cli]

/-- Recorded line numbers stay non-decreasing through the scan as long as
every hunk header declares a start at least as large as the running
counter. -/
theorem foldl_diffStep_mono : ∀ (lines : List (List Char)) (st : DiffState),
    List.Chain' (fun a b => a ≤ b) st.addedLineNumbers →
    (∀ x ∈ st.addedLineNumbers.getLast?, x ≤ st.currentNewLine) →
    hunksOrderedAux lines st.currentNewLine = true →
    List.Chain' (fun a b => a ≤ b) ((lines.foldl diffStep st).addedLineNumbers) := by
  intro lines
  induction lines with
  | nil => intro st hch _ _; exact hch
  | cons l ls ih =>
    intro st hch hlast hord
    rw [List.foldl_cons]
    by_cases hn : startsWithL "new file mode".data l = true
    · obtain ⟨h1, h2, h3⟩ := newFileMode_line_shape hn
      have hplus : (startsWithL "+".data l && !startsWithL "+++".data l) = false := by
        simp [h2]
      have hstep : diffStep st l = { st with isNewFile := true } := by
        simp [diffStep, hn, h1, hplus, h3]
      rw [hstep]
      have hord' : hunksOrderedAux ls st.currentNewLine = true := by
        simpa [hunksOrderedAux, h1, hplus, h3] using hord
      exact ih { st with isNewFile := true } hch hlast hord'
    · cases hph : parseHunkHeader l with
      | some n =>
        have hstep : diffStep st l = { st with currentNewLine := n } := by
          simp [diffStep, hn, hph]
        rw [hstep]
        simp only [hunksOrderedAux, hph, Bool.and_eq_true, decide_eq_true_eq] at hord
        refine ih { st with currentNewLine := n } hch ?_ hord.2
        intro x hx
        exact le_trans (hlast x hx) hord.1
      | none =>
        by_cases hp : (startsWithL "+".data l && !startsWithL "+++".data l) = true
        · have hstep : diffStep st l =
              { st with addedLines := st.addedLines ++ [String.mk (l.drop 1)],
                        addedLineNumbers := st.addedLineNumbers ++ [st.currentNewLine],
                        currentNewLine := st.currentNewLine + 1 } := by
            simp [diffStep, hn, hph, hp]
          rw [hstep]
          have hord' : hunksOrderedAux ls (st.currentNewLine + 1) = true := by
            simpa [hunksOrderedAux, hph, hp] using hord
          refine ih _ ?_ ?_ hord'
          · rw [List.chain'_append]
            refine ⟨hch, List.chain'_singleton _, ?_⟩
            intro x hx y hy
            simp only [List.head?_cons, Option.mem_def, Option.some.injEq] at hy
            subst hy
            exact hlast x hx
          · intro x hx
            simp only [List.getLast?_concat, Option.mem_def, Option.some.injEq] at hx
            subst hx
            exact Nat.le_succ _
        · by_cases hs : startsWithL " ".data l = true
          · have hstep : diffStep st l = { st with currentNewLine := st.currentNewLine + 1 } := by
              simp [diffStep, hn, hph, hp, hs]
            rw [hstep]
            have hord' : hunksOrderedAux ls (st.currentNewLine + 1) = true := by
              simpa [hunksOrderedAux, hph, hp, hs] using hord
            refine ih _ hch ?_ hord'
            intro x hx
            exact le_trans (hlast x hx) (Nat.le_succ _)
          · have hstep : diffStep st l = st := by
              simp [diffStep, hn, hph, hp, hs]
            rw [hstep]
            have hord' : hunksOrderedAux ls st.currentNewLine = true := by
              simpa [hunksOrderedAux, hph, hp, hs] using hord
            exact ih st hch hlast hord'

/-- C3 amended: the recorded line numbers are monotonically non-decreasing
across the whole record for every diff whose hunk headers are in order
(each declared new-range start at least the counter reached before it),
which holds for every well-formed diff; arbitrary malformed text with
out-of-order hunks can produce a decreasing sequence. -/
theorem addedLineNumbers_monotone_of_hunksOrdered (d : String)
    (h : hunksOrdered d = true) :
    List.Chain' (fun a b => a ≤ b) (parseDiffOutput d).addedLineNumbers := by
  have := foldl_diffStep_mono (splitOnCharL '\n' d.data)
    { addedLines := [], addedLineNumbers := [], isNewFile := false, currentNewLine := 0 }
    (by simp) (by simp) h
  simpa [parseDiffOutput] using this

/-- Witness for the amended C3 theorem at a concrete two-hunk diff. -/
theorem addedLineNumbers_monotone_witness :
    hunksOrdered "@@ -1,0 +2,2 @@\n+a\n+b\n@@ -8,0 +9,1 @@\n+c" = true ∧
    List.Chain' (fun a b => a ≤ b)
      (parseDiffOutput "@@ -1,0 +2,2 @@\n+a\n+b\n@@ -8,0 +9,1 @@\n+c").addedLineNumbers :=
  ⟨by decide, addedLineNumbers_monotone_of_hunksOrdered _ (by decide)⟩

/-- C3 counterexample: extraction from a malformed diff whose second hunk
header declares an earlier start than the first records the decreasing
sequence of numbers five, six, one, so the claim quantified over arbitrary
input diff text is false. -/
theorem addedLineNumbers_not_monotone_outOfOrder_hunks :
    (parseDiffOutput "@@ -1,0 +5,2 @@\n+a\n+b\n@@ -1,0 +1,1 @@\n+c").addedLineNumbers = [5, 6, 1] ∧
    ¬ List.Chain' (fun a b => a ≤ b)
      (parseDiffOutput "@@ -1,0 +5,2 @@\n+a\n+b\n@@ -1,0 +1,1 @@\n+c").addedLineNumbers := by
  have h : (parseDiffOutput "@@ -1,0 +5,2 @@\n+a\n+b\n@@ -1,0 +1,1 @@\n+c").addedLineNumbers
      = [5, 6, 1] := by decide
  refine ⟨h, ?_⟩
  rw [h]
  intro hc
  obtain ⟨-, hrest⟩ := List.chain'_cons.mp hc
  obtain ⟨h61, -⟩ := List.chain'_cons.mp hrest
  omega

theorem debugScan_eq (c : FileChanges) : ∀ (l : List String) (idx : Nat),
    debugScan c idx l =
      ((List.enumFrom idx l).filter (fun p => debugLineHit p.2)).map
        (fun p => debugLineFinding c p.1 p.2) := by
  intro l
  induction l with
  | nil => intro idx; rfl
  | cons a t ih =>
    intro idx
    by_cases h1 : debugCommentStart a = true
    · have hhit : debugLineHit a = false := by simp [debugLineHit, h1]
      simp [debugScan, List.enumFrom, List.filter, h1, hhit, ih]
    · by_cases h2 : DEBUG_PATTERNS.any (fun p => p a) = true
      · have hhit : debugLineHit a = true := by simp [debugLineHit, h1, h2]
        simp [debugScan, List.enumFrom, List.filter, h1, h2, hhit, ih, debugLineFinding]
      · have hhit : debugLineHit a = false := by simp [debugLineHit, h1, h2]
        simp [debugScan, List.enumFrom, List.filter, h1, h2, hhit, ih]

/-- C6 checkDebugStatements emits at most one finding per added line,
namely exactly one per non-comment line matched by some debug pattern, in
line order; every finding has severity error and carries the
addedLineNumbers entry of the same index; a trimmed comment-start line
yields nothing even when it matches; and the single line
console.log of hello at position five yields exactly one error finding
with line five. -/
theorem checkDebugStatements_characterization :
    (∀ c : FileChanges,
      checkDebugStatements c =
        ((c.addedLines.enum.filter (fun p => debugLineHit p.2)).map
          (fun p => debugLineFinding c p.1 p.2)) ∧
      (checkDebugStatements c).all (fun r => r.severity == Severity.error) = true) ∧
    checkDebugStatements
        { filename := "src/foo.ts", addedLines := ["console.log(\"hello\")"],
          addedLineNumbers := [5], isNewFile := false, sizeBytes := 1000 } =
      [{ rule := "no-debug-statements", severity := Severity.error,
         message := "Debug statement found: console.log(\"hello\")",
         line := some 5, file := some "src/foo.ts" }] ∧
    checkDebugStatements
        { filename := "src/foo.ts", addedLines := ["// console.log(\"x\")"],
          addedLineNumbers := [1], isNewFile := false, sizeBytes := 1000 } = [] := by
  refine ⟨fun c => ⟨?_, ?_⟩, by decide, by decide⟩
  · exact debugScan_eq c c.addedLines 0
  · rw [checkDebugStatements, debugScan_eq]
    simp only [List.all_eq_true]
    intro r hr
    simp only [List.mem_map] at hr
    obtain ⟨p, -, rfl⟩ := hr
    rfl

theorem todoScan_eq (c : FileChanges) : ∀ (l : List String) (idx : Nat),
    todoScan c idx l =
      ((List.enumFrom idx l).filter (fun p => todoLineHit p.2)).map
        (fun p => todoLineFinding c p.1 p.2) := by
  intro l
  induction l with
  | nil => intro idx; rfl
  | cons a t ih =>
    intro idx
    by_cases h1 : todoLineHit a = true
    · simp [todoScan, List.enumFrom, List.filter, h1, ih, todoLineFinding]
    · simp [todoScan, List.enumFrom, List.filter, h1, ih]

/-- C7 checkTodos emits one warning finding per added line exactly when
the line matches a marker word at a word boundary, case-insensitively,
immediately followed by whitespace or a colon; there is no comment-marker
exclusion, so a marker in a comment line still flags, while the line
declaring a todos variable yields nothing. -/
theorem checkTodos_characterization :
    (∀ c : FileChanges,
      checkTodos c =
        ((c.addedLines.enum.filter (fun p => todoLineHit p.2)).map
          (fun p => todoLineFinding c p.1 p.2)) ∧
      (checkTodos c).all (fun r => r.severity == Severity.warning) = true) ∧
    checkTodos
        { filename := "src/foo.ts", addedLines := ["const todos = [];"],
          addedLineNumbers := [1], isNewFile := false, sizeBytes := 1000 } = [] ∧
    checkTodos
        { filename := "src/foo.ts", addedLines := ["// TODO: fix this later"],
          addedLineNumbers := [3], isNewFile := false, sizeBytes := 1000 } =
      [{ rule := "no-todo-in-changes", severity := Severity.warning,
         message := "Unresolved marker in new code: // TODO: fix this later",
         line := some 3, file := some "src/foo.ts" }] := by
  refine ⟨fun c => ⟨?_, ?_⟩, by decide, by decide⟩
  · exact todoScan_eq c c.addedLines 0
  · rw [checkTodos, todoScan_eq]
    simp only [List.all_eq_true]
    intro r hr
    simp only [List.mem_map] at hr
    obtain ⟨p, -, rfl⟩ := hr
    rfl

/-- C5 checkSecrets returns the empty list for every change record whose
lower-cased filename contains test, spec, mock, fixture, example or
.env.sample, or ends in .md, regardless of the added lines. -/
theorem checkSecrets_skips_testlike_files :
    ∀ c : FileChanges,
      (containsS (jsToLowerS c.filename) "test" = true ∨
       containsS (jsToLowerS c.filename) "spec" = true ∨
       containsS (jsToLowerS c.filename) "mock" = true ∨
       containsS (jsToLowerS c.filename) "fixture" = true ∨
       containsS (jsToLowerS c.filename) "example" = true ∨
       containsS (jsToLowerS c.filename) ".env.sample" = true ∨
       endsWithS (jsToLowerS c.filename) ".md" = true) →
      checkSecrets c = [] := by
  intro c h
  have hcond : (containsS (jsToLowerS c.filename) "test" ||
      containsS (jsToLowerS c.filename) "spec" ||
      containsS (jsToLowerS c.filename) "mock" ||
      containsS (jsToLowerS c.filename) "fixture" ||
      containsS (jsToLowerS c.filename) "example" ||
      containsS (jsToLowerS c.filename) ".env.sample" ||
      endsWithS (jsToLowerS c.filename) ".md") = true := by
    rcases h with h | h | h | h | h | h | h <;> simp [h]
  simp [checkSecrets, hcond]

/-- Witness: an added line carrying an OpenAI-shaped token inside a file
named src/auth.test.ts yields zero findings. -/
theorem checkSecrets_skips_testlike_files_witness :
    checkSecrets
      { filename := "src/auth.test.ts",
        addedLines := ["const fakeKey = \"sk-abc123def456ghi789jkl012mno345pqr678stu901vwx234y\";"],
        addedLineNumbers := [1], isNewFile := false, sizeBytes := 1000 } = [] :=
  checkSecrets_skips_testlike_files _ (Or.inl (by decide))

/-- C1 The source guards only the Python naming convention against a
transformation that leaves the name unchanged; the four JS and TS renames
return a non-matching path such as src/foo.go unchanged, and the
unchanged name is found in the project file set whenever the changed file
itself is tracked, so checkTestExists returns zero findings where the
claim demands exactly one info finding.  The last conjunct shows the
finding does appear once the original file is absent from the set, so the
zero-finding result comes precisely from the self-match. -/
theorem checkTestExists_unchanged_candidate_matches_original :
    conv1 "src/foo.go" = "src/foo.go" ∧
    checkTestExists
      { filename := "src/foo.go", addedLines := ["x"], addedLineNumbers := [1],
        isNewFile := false, sizeBytes := 1000 } ["src/foo.go"] = [] ∧
    checkTestExists
      { filename := "src/foo.go", addedLines := ["x"], addedLineNumbers := [1],
        isNewFile := false, sizeBytes := 1000 } [] =
      [{ rule := "test-file-exists", severity := Severity.info,
         message := "No test file found for foo.go",
         line := none, file := some "src/foo.go" }] := by
  refine ⟨by decide, by decide, by decide⟩

/-- C4 amended: checkComplexity returns exactly one warning finding if
and only if the extension computed from the filename is one of the four
JS and TS extensions, at least twenty lines were added, and the number of
global matches of the branch pattern in the newline-joined added lines
plus one strictly exceeds the threshold, where the pattern wraps every
alternative in word boundaries, so the doubled ampersands and bars count
only when flanked by word characters on both sides. -/
theorem checkComplexity_fires_iff (c : FileChanges) (threshold : Int) :
    checkComplexity c threshold = [complexityFinding c] ↔
      (extOf c.filename ∈ [".ts", ".tsx", ".js", ".jsx"] ∧
       20 ≤ c.addedLines.length ∧
       threshold < ((countBranches
         (List.intercalate '\n'.toString.data (c.addedLines.map String.data)) + 1 : Nat) : Int)) := by
  have hcb : (([".ts", ".tsx", ".js", ".jsx"] : List String).contains (extOf c.filename) = true) ↔
      extOf c.filename ∈ ([".ts", ".tsx", ".js", ".jsx"] : List String) := List.elem_iff
  simp only [checkComplexity]
  split_ifs with ha hb hc
  · rw [Bool.not_eq_true'] at ha
    have hne : ¬ extOf c.filename ∈ ([".ts", ".tsx", ".js", ".jsx"] : List String) := by
      intro hm
      rw [hcb.mpr hm] at ha
      simp at ha
    simp [hne]
  · have h20 : ¬ (20 ≤ c.addedLines.length) := by omega
    simp [h20]
  · have hmem : extOf c.filename ∈ ([".ts", ".tsx", ".js", ".jsx"] : List String) := by
      apply hcb.mp
      cases hx : ([".ts", ".tsx", ".js", ".jsx"] : List String).contains (extOf c.filename)
      · have hcon : (!(([".ts", ".tsx", ".js", ".jsx"] : List String).contains
            (extOf c.filename))) = true := by
          rw [hx]
          rfl
        exact absurd hcon ha
      · rfl
    have h20 : 20 ≤ c.addedLines.length := by omega
    exact iff_of_true (by simp [complexityFinding]) ⟨hmem, h20, hc⟩
  · constructor
    · intro h
      simp at h
    · intro h
      exact absurd h.2.2 hc

/-- Witness for the amended C4 theorem: twenty added lines of word-flanked
doubled ampersands against threshold one produce the single warning. -/
theorem checkComplexity_fires_iff_witness :
    checkComplexity
      { filename := "src/foo.ts", addedLines := List.replicate 20 "a&&b",
        addedLineNumbers := List.replicate 20 1, isNewFile := false, sizeBytes := 1000 } 1 =
      [complexityFinding
        { filename := "src/foo.ts", addedLines := List.replicate 20 "a&&b",
          addedLineNumbers := List.replicate 20 1, isNewFile := false, sizeBytes := 1000 }] :=
  (checkComplexity_fires_iff _ 1).mpr ⟨by decide, by decide, by decide⟩

/-- C4 counterexample: a record of twenty added lines each containing a
space-separated doubled ampersand, against threshold one, produces no
finding, although the claim counts every doubled-ampersand occurrence and
therefore demands exactly one warning (twenty matches plus one exceeds
one); the word boundaries of the pattern reject the operator when it is
flanked by spaces. -/
theorem checkComplexity_spaced_andand_not_counted :
    checkComplexity
      { filename := "src/foo.ts", addedLines := List.replicate 20 "a && b",
        addedLineNumbers := List.replicate 20 1, isNewFile := false, sizeBytes := 1000 } 1 = [] ∧
    extOf "src/foo.ts" = ".ts" ∧
    (List.replicate 20 "a && b" : List String).length = 20 ∧
    (List.replicate 20 "a && b" : List String).all (fun l => containsS l "&&") = true := by
  refine ⟨by decide, by decide, by decide, by decide⟩

theorem mem_insertFinding {x z : CheckResult} : ∀ {acc : List CheckResult},
    z ∈ insertFinding x acc → z = x ∨ z ∈ acc := by
  intro acc
  induction acc with
  | nil =>
    intro h
    simp [insertFinding] at h
    exact Or.inl h
  | cons y ys ih =>
    intro h
    by_cases hle : order y.severity ≤ order x.severity
    · simp only [insertFinding, if_pos hle, List.mem_cons] at h
      rcases h with h | h
      · exact Or.inr (by simp [h])
      · rcases ih h with h' | h'
        · exact Or.inl h'
        · exact Or.inr (by simp [h'])
    · simp only [insertFinding, if_neg hle, List.mem_cons] at h
      rcases h with h | h | h
      · exact Or.inl h
      · exact Or.inr (by simp [h])
      · exact Or.inr (by simp [h])

theorem insertFinding_pairwise {x : CheckResult} : ∀ {acc : List CheckResult},
    acc.Pairwise leFinding → (insertFinding x acc).Pairwise leFinding := by
  intro acc
  induction acc with
  | nil =>
    intro _
    simp [insertFinding]
  | cons y ys ih =>
    intro hp
    rw [List.pairwise_cons] at hp
    obtain ⟨hy, hys⟩ := hp
    by_cases hle : order y.severity ≤ order x.severity
    · simp only [insertFinding, if_pos hle]
      rw [List.pairwise_cons]
      refine ⟨?_, ih hys⟩
      intro z hz
      rcases mem_insertFinding hz with rfl | hz'
      · exact hle
      · exact hy z hz'
    · simp only [insertFinding, if_neg hle]
      rw [List.pairwise_cons]
      refine ⟨?_, List.pairwise_cons.mpr ⟨hy, hys⟩⟩
      intro z hz
      have hxy : order x.severity ≤ order y.severity := le_of_lt (Nat.lt_of_not_le hle)
      rcases List.mem_cons.mp hz with rfl | hz'
      · exact hxy
      · exact le_trans hxy (hy z hz')

/-- Inserting into a sorted accumulator puts the new element behind every
element of its own severity band: the filtered band gains the new
element at its end. -/
theorem insertFinding_filter (s : Severity) (x : CheckResult) : ∀ (acc : List CheckResult),
    acc.Pairwise leFinding →
    (insertFinding x acc).filter (fun r => r.severity == s) =
      acc.filter (fun r => r.severity == s) ++ (if x.severity == s then [x] else []) := by
  intro acc
  induction acc with
  | nil =>
    intro _
    by_cases hxs : (x.severity == s) = true <;> simp [insertFinding, List.filter, hxs]
  | cons y ys ih =>
    intro hp
    rw [List.pairwise_cons] at hp
    obtain ⟨hy, hys⟩ := hp
    by_cases hle : order y.severity ≤ order x.severity
    · simp only [insertFinding, if_pos hle, List.filter_cons]
      rw [ih hys]
      by_cases hys' : (y.severity == s) = true <;> simp [hys']
    · have hxy : order x.severity < order y.severity := Nat.lt_of_not_le hle
      simp only [insertFinding, if_neg hle, List.filter_cons]
      by_cases hxs : (x.severity == s) = true
      · have hx : x.severity = s := by simpa using hxs
        have hall : ∀ z ∈ y :: ys, ¬ ((fun r => r.severity == s) z = true) := by
          intro z hz hzs
          have hzy : order y.severity ≤ order z.severity := by
            rcases List.mem_cons.mp hz with rfl | hz'
            · exact le_refl _
            · exact hy z hz'
          have hzsev : z.severity = s := by simpa using hzs
          have : order z.severity = order x.severity := by rw [hzsev, hx]
          omega
        have hy0 : (y.severity == s) = false := by
          have := hall y (by simp)
          simpa using this
        have hys0 : ys.filter (fun r => r.severity == s) = [] :=
          List.filter_eq_nil_iff.mpr (fun z hz => hall z (by simp [hz]))
        simp [hxs, hy0, hys0, List.filter_cons]
      · simp [hxs, List.filter_cons]

theorem sortFindings_aux_pairwise : ∀ (l acc : List CheckResult),
    acc.Pairwise leFinding →
    (l.foldl (fun a x => insertFinding x a) acc).Pairwise leFinding := by
  intro l
  induction l with
  | nil => intro acc h; exact h
  | cons x t ih =>
    intro acc h
    rw [List.foldl_cons]
    exact ih _ (insertFinding_pairwise h)

theorem sortFindings_aux_filter (s : Severity) : ∀ (l acc : List CheckResult),
    acc.Pairwise leFinding →
    (l.foldl (fun a x => insertFinding x a) acc).filter (fun r => r.severity == s) =
      acc.filter (fun r => r.severity == s) ++ l.filter (fun r => r.severity == s) := by
  intro l
  induction l with
  | nil => intro acc h; simp
  | cons x t ih =>
    intro acc h
    rw [List.foldl_cons, ih _ (insertFinding_pairwise h), insertFinding_filter s x acc h,
      List.filter_cons]
    by_cases hxs : (x.severity == s) = true <;> simp [hxs]

/-- C8 The merged report order is severity-major and stable: along the
sorted output the severity rank never decreases (so every error comes
before every warning and every warning before every info), and for each
severity the subsequence of that severity equals the subsequence of the
input, preserving relative input order within each band. -/
theorem sortFindings_severity_major_stable :
    ∀ l : List CheckResult,
      (sortFindings l).Pairwise (fun a b => order a.severity ≤ order b.severity) ∧
      ∀ s : Severity, (sortFindings l).filter (fun r => r.severity == s) =
        l.filter (fun r => r.severity == s) := by
  intro l
  constructor
  · exact sortFindings_aux_pairwise l [] (by simp)
  · intro s
    have h := sortFindings_aux_filter s l [] (by simp)
    simpa [sortFindings] using h
